import Mathlib

/-!
Shallow embedding of the `ittybitty` crate (`src/lib.rs`): `IttyBitty<N>` is
a dynamically sized bit set backed by `N` machine words that spills to a
heap-allocated word buffer once a bit beyond the inline capacity is set.

Modelling conventions:
* the platform word is 64 bits (`INLINE_BITS = 64`); `usize` values are
  natural numbers, with `% USIZE` inserted exactly where the source's
  `usize` arithmetic can wrap (the release-mode wrapping semantics);
* the storage is a `spilled` flag plus the list `buf` of data words: the
  `N` inline words when not spilled, or the heap buffer when spilled (the
  heap buffer's length equals the stored word count, per the crate's
  invariant, so `words()` is `buf.length` in both modes);
* the allocator is modelled as exact: a grown buffer's capacity equals its
  requested length, so the source's trailing `push` loop that absorbs
  allocator slack appends nothing (real allocator slack only appends
  further zero words and only enlarges the recorded word count);
* out-of-range word reads (undefined behaviour in the source) read `0`
  (`List.getD`) and out-of-range word writes are dropped (`List.set`).
-/

def INLINE_BITS : Nat := 64

def USIZE : Nat := 2 ^ 64

def usizeMax : Nat := USIZE - 1

def HEAP_FLAG : Nat := 2 ^ 63

structure IttyBitty (N : Nat) where
  spilled : Bool
  buf : List Nat

namespace IttyBitty

/-- Read word `w` of a buffer; out-of-range reads (UB in the source) give 0. -/
def word (buf : List Nat) (w : Nat) : Nat := buf.getD w 0

/-- `words_needed`: `(bits + INLINE_BITS_MASK) >> INLINE_BITS_POT`, with the
`usize` addition wrapping as in the source. -/
def words_needed (bits : Nat) : Nat := ((bits + 63) % USIZE) >>> 6

/-- `IttyBitty::new`: empty inline set, all `N` words zero. -/
def new (N : Nat) : IttyBitty N := ⟨false, List.replicate N 0⟩

/-- `INLINE_CAPACITY = INLINE_BITS * N - 1`. -/
def INLINE_CAPACITY (N : Nat) : Nat := INLINE_BITS * N - 1

/-- `IttyBitty::with_capacity`. -/
def with_capacity (N bits : Nat) : IttyBitty N :=
  if bits ≤ INLINE_CAPACITY N then new N
  else ⟨true, List.replicate (words_needed bits) 0⟩

/-- `IttyBitty::capacity`: heap mode `word_count * INLINE_BITS`, inline
mode `INLINE_CAPACITY`. -/
def capacity {N : Nat} (s : IttyBitty N) : Nat :=
  if s.spilled then s.buf.length * INLINE_BITS else INLINE_CAPACITY N

/-- `IttyBitty::get_unchecked`: `word(bit >> 6) & (1 << (bit & 63)) != 0`. -/
def get_unchecked {N : Nat} (s : IttyBitty N) (bit : Nat) : Bool :=
  word s.buf (bit >>> 6) &&& (1 <<< (bit &&& 63)) != 0

/-- `IttyBitty::get`: false beyond capacity. -/
def get {N : Nat} (s : IttyBitty N) (bit : Nat) : Bool :=
  if bit < capacity s then get_unchecked s bit else false

/-- `IttyBitty::set_unchecked`; `!b` is complement within the 64-bit word,
i.e. `usizeMax ^^^ b`. -/
def set_unchecked {N : Nat} (s : IttyBitty N) (bit : Nat) (val : Bool) :
    IttyBitty N :=
  let w := bit >>> 6
  let b := 1 <<< (bit &&& 63)
  let old := word s.buf w
  ⟨s.spilled, s.buf.set w (if val then old ||| b else old &&& (usizeMax ^^^ b))⟩

/-- `IttyBitty::reallocate`: no-op when `bits` fits, otherwise grow to
`max(words_needed bits, words + 1)` words (exact-allocator model), zero
filling the new words, and record heap mode. -/
def reallocate {N : Nat} (s : IttyBitty N) (bits : Nat) : IttyBitty N :=
  if bits ≤ capacity s then s
  else
    let newWords := max (words_needed bits) (s.buf.length + 1)
    ⟨true, s.buf ++ List.replicate (newWords - s.buf.length) 0⟩

/-- `IttyBitty::set`; `(bit + 1) % USIZE` is the wrapping `usize`
computation `bit + 1` of the source. -/
def set {N : Nat} (s : IttyBitty N) (bit : Nat) (value : Bool) : IttyBitty N :=
  if capacity s ≤ bit then
    if value then set_unchecked (reallocate s ((bit + 1) % USIZE)) bit value
    else s
  else set_unchecked s bit value

/-- `IttyBitty::clear`: zero every currently allocated word. -/
def clear {N : Nat} (s : IttyBitty N) : IttyBitty N :=
  ⟨s.spilled, List.replicate s.buf.length 0⟩

/-- `!0 << b` on `usize` (wrapping shift): the mask of bits `≥ b`. -/
def highMask (b : Nat) : Nat := (usizeMax <<< b) % USIZE

/-- `!(!0 << b)` on `usize`: the mask of bits `< b`. -/
def lowMask (b : Nat) : Nat := usizeMax ^^^ highMask b

/-- `IttyBitty::truncate`: keep bits below `bit` in its word, zero all
later words; no-op at or beyond capacity. -/
def truncate {N : Nat} (s : IttyBitty N) (bit : Nat) : IttyBitty N :=
  if bit < capacity s then
    let w := bit >>> 6
    let b := bit &&& 63
    let buf1 := s.buf.set w (word s.buf w &&& lowMask b)
    ⟨s.spilled, buf1.take (w + 1) ++ List.replicate (buf1.length - (w + 1)) 0⟩
  else s

/-- `u64::trailing_zeros` restricted to `k` bits: index of the lowest set
bit among bits `0..k`, or `k` if none. -/
def tzk : Nat → Nat → Nat
  | _, 0 => 0
  | x, k + 1 => if x % 2 = 1 then 0 else tzk (x / 2) k + 1

/-- `u64::leading_zeros` restricted to `k` bits: number of zero bits from
bit `k-1` downward before the first set bit, or `k` if none. -/
def lzk : Nat → Nat → Nat
  | _, 0 => 0
  | x, k + 1 => if x.testBit k then 0 else lzk x k + 1

/-- The word loop of `next_set_bit` over words `w, w+1, ...`, `fuel` many. -/
def nextScan (buf : List Nat) : Nat → Nat → Nat
  | _, 0 => usizeMax
  | w, fuel + 1 =>
    let t := tzk (word buf w) 64
    if t < 64 then t + (w <<< 6) else nextScan buf (w + 1) fuel

/-- `IttyBitty::next_set_bit`. -/
def next_set_bit {N : Nat} (s : IttyBitty N) (bit : Nat) : Nat :=
  if capacity s ≤ bit then usizeMax
  else
    let w := bit >>> 6
    let b := bit &&& 63
    let t := tzk (word s.buf w &&& highMask b) 64
    if t < 64 then t + (w <<< 6)
    else nextScan s.buf (w + 1) (s.buf.length - (w + 1))

/-- The word loop of `prev_set_bit` over words `w-1, ..., 0` (the argument
is one past the first word examined). -/
def prevScan (buf : List Nat) : Nat → Nat
  | 0 => usizeMax
  | w + 1 =>
    let p := lzk (word buf w) 64
    if p < 64 then (w <<< 6) + 64 - 1 - p
    else prevScan buf w

/-- `IttyBitty::prev_set_bit` (note the source's clamp of `bit` to
`capacity() - 1`). -/
def prev_set_bit {N : Nat} (s : IttyBitty N) (bit : Nat) : Nat :=
  if bit = 0 then usizeMax
  else
    let bit1 := min bit (capacity s - 1)
    let w := bit1 >>> 6
    let b := bit1 &&& 63
    let p := lzk (word s.buf w &&& lowMask b) 64
    if p < 64 then (w <<< 6) + 64 - 1 - p
    else prevScan s.buf w

/-- `PartialEq::eq`, verbatim: the two guard loops iterate the (empty)
ranges `words_a..words_b` under `words_a > words_b` and `words_b..words_a`
under `words_b > words_a`, exactly as the source writes them. -/
def eq {N : Nat} (a b : IttyBitty N) : Bool :=
  let words_a := a.buf.length
  let words_b := b.buf.length
  (if words_b < words_a then
      (List.range' words_a (words_b - words_a)).all (fun w => word b.buf w == 0)
    else true) &&
  (if words_a < words_b then
      (List.range' words_b (words_a - words_b)).all (fun w => word a.buf w == 0)
    else true) &&
  (List.range words_a).all (fun w => word a.buf w == word b.buf w)

/-- `Iter::next` driven to a list: from cursor `i`, with fuel. -/
def iterFrom {N : Nat} (s : IttyBitty N) : Nat → Nat → List Nat
  | 0, _ => []
  | fuel + 1, i =>
    let j := next_set_bit s i
    if j = usizeMax then [] else j :: iterFrom s fuel (j + 1)

/-- The full forward (borrowing) iteration: cursor starts at 0; fuel
`capacity` suffices because the cursor strictly increases and stays below
capacity. -/
def iterList {N : Nat} (s : IttyBitty N) : List Nat := iterFrom s (capacity s) 0

/-- `IntoIter::next` driven to a list: from cursor `i`, with fuel. -/
def intoIterFrom {N : Nat} (s : IttyBitty N) : Nat → Nat → List Nat
  | 0, _ => []
  | fuel + 1, i =>
    let j := next_set_bit s i
    if j = usizeMax then [] else j :: intoIterFrom s fuel (j + 1)

/-- The full owning (consuming) iteration. -/
def intoIterList {N : Nat} (s : IttyBitty N) : List Nat :=
  intoIterFrom s (capacity s) 0

/-- `IterRev::next` driven to a list: from cursor `i`, with fuel. -/
def iterRevFrom {N : Nat} (s : IttyBitty N) : Nat → Nat → List Nat
  | 0, _ => []
  | fuel + 1, i =>
    if i = usizeMax then []
    else
      let j := prev_set_bit s i
      if j = usizeMax then [] else j :: iterRevFrom s fuel j

/-- The full reverse (borrowing) iteration: cursor starts at `capacity()`;
fuel `capacity + 1` suffices because the cursor strictly decreases. -/
def iterRevList {N : Nat} (s : IttyBitty N) : List Nat :=
  iterRevFrom s (capacity s + 1) (capacity s)

/-- Well-formedness of a reachable `IttyBitty` state: `N ≥ 2` (asserted at
construction), inline mode carries exactly the `N` inline words, heap mode
a nonempty buffer, every word is a `usize` value, and in inline mode the
reserved heap-flag bit (bit 63 of the last word, bit index
`INLINE_BITS * N - 1`, which is exactly `capacity`) is clear. -/
def Wf {N : Nat} (s : IttyBitty N) : Prop :=
  2 ≤ N ∧
  (s.spilled = false → s.buf.length = N) ∧
  (s.spilled = true → 1 ≤ s.buf.length) ∧
  (∀ x ∈ s.buf, x < USIZE) ∧
  (s.spilled = false → word s.buf (N - 1) < HEAP_FLAG)

end IttyBitty

namespace IttyBitty

/-! ### Arithmetic bridges between the source's bit tricks and `/`, `%` -/

theorem shiftr6_eq (x : Nat) : x >>> 6 = x / 64 := by
  rw [Nat.shiftRight_eq_div_pow]

theorem shiftl6_eq (x : Nat) : x <<< 6 = 64 * x := by
  rw [Nat.shiftLeft_eq]; ring

theorem and63_eq (x : Nat) : x &&& 63 = x % 64 := by
  have h63 : (63 : Nat) = 2 ^ 6 - 1 := by norm_num
  have h64 : (64 : Nat) = 2 ^ 6 := by norm_num
  apply Nat.eq_of_testBit_eq
  intro i
  rw [h63, h64, Nat.testBit_and, Nat.testBit_mod_two_pow,
    Nat.testBit_two_pow_sub_one, Bool.and_comm]

theorem one_shl_eq (j : Nat) : 1 <<< j = 2 ^ j := by
  rw [Nat.shiftLeft_eq, one_mul]

theorem testBit_usizeMax (i : Nat) : usizeMax.testBit i = decide (i < 64) := by
  have h : usizeMax = 2 ^ 64 - 1 := rfl
  rw [h, Nat.testBit_two_pow_sub_one]

theorem testBit_highMask {b : Nat} (hb : b < 64) (j : Nat) :
    (highMask b).testBit j = decide (b ≤ j ∧ j < 64) := by
  have h : USIZE = 2 ^ 64 := rfl
  rw [highMask, h, Nat.testBit_mod_two_pow, Nat.testBit_shiftLeft, testBit_usizeMax]
  by_cases h1 : j < 64 <;> by_cases h2 : b ≤ j <;>
    simp_all <;> omega

theorem testBit_lowMask {b : Nat} (hb : b < 64) (j : Nat) :
    (lowMask b).testBit j = decide (j < b) := by
  rw [lowMask, Nat.testBit_xor, testBit_usizeMax, testBit_highMask hb]
  by_cases h1 : j < 64 <;> by_cases h2 : b ≤ j <;>
    simp_all <;> omega

/-! ### `tzk` (trailing-zero count) characterization -/

theorem tzk_le (x k : Nat) : tzk x k ≤ k := by
  induction k generalizing x with
  | zero => simp [tzk]
  | succ k ih =>
    rw [tzk]
    by_cases h : x % 2 = 1
    · simp [h]
    · simp only [h, if_false]
      exact Nat.succ_le_succ (ih (x / 2))

theorem tzk_testBit {x k : Nat} (h : tzk x k < k) : x.testBit (tzk x k) = true := by
  induction k generalizing x with
  | zero => omega
  | succ k ih =>
    rw [tzk] at h ⊢
    by_cases hx : x % 2 = 1
    · simp [hx, Nat.testBit_zero]
    · simp only [hx, if_false] at h ⊢
      rw [Nat.testBit_add_one]
      exact ih (by omega)

theorem tzk_min {x k j : Nat} (hj : j < tzk x k) : x.testBit j = false := by
  induction k generalizing x j with
  | zero => simp [tzk] at hj
  | succ k ih =>
    rw [tzk] at hj
    by_cases hx : x % 2 = 1
    · simp [hx] at hj
    · simp only [hx, if_false] at hj
      match j with
      | 0 => simp [Nat.testBit_zero]; omega
      | j + 1 =>
        rw [Nat.testBit_add_one]
        exact ih (by omega)

theorem tzk_zero_word (k : Nat) : tzk 0 k = k := by
  induction k with
  | zero => rfl
  | succ k ih => rw [tzk]; simp [ih]

/-! ### Word access API -/

theorem word_nil (w : Nat) : word ([] : List Nat) w = 0 := by
  simp [word]

theorem word_of_ge (buf : List Nat) {w : Nat} (h : buf.length ≤ w) :
    word buf w = 0 := by
  simp [word, List.getElem?_eq_none h]

theorem word_replicate (n w : Nat) : word (List.replicate n 0) w = 0 := by
  simp only [word, List.getD_eq_getElem?_getD, List.getElem?_replicate]
  split <;> rfl

theorem word_append (l1 l2 : List Nat) (w : Nat) :
    word (l1 ++ l2) w = if w < l1.length then word l1 w else word l2 (w - l1.length) := by
  by_cases h : w < l1.length
  · simp [word, h, List.getElem?_append_left h]
  · simp [word, h, List.getElem?_append_right (by omega : l1.length ≤ w)]

theorem word_set (l : List Nat) (i x w : Nat) :
    word (l.set i x) w =
      if i = w ∧ i < l.length then x else word l w := by
  by_cases h : i = w
  · subst h
    by_cases h2 : i < l.length
    · simp [word, List.getElem?_set_self h2, h2]
    · simp [word, h2, List.set_eq_of_length_le (by omega : l.length ≤ i)]
  · simp [word, List.getElem?_set_ne h, h]

theorem word_take (l : List Nat) {n w : Nat} (h : w < n) :
    word (l.take n) w = word l w := by
  simp [word, List.getElem?_take_of_lt h]

theorem word_lt_of_all {buf : List Nat} (h : ∀ x ∈ buf, x < USIZE) (w : Nat) :
    word buf w < USIZE := by
  by_cases hw : w < buf.length
  · have : buf.getD w 0 ∈ buf := by
      rw [List.getD_eq_getElem?_getD, List.getElem?_eq_getElem hw]
      exact List.getElem_mem hw
    exact h _ this
  · rw [word_of_ge buf (by omega)]
    have : (0:Nat) < 2 ^ 64 := by positivity
    exact this

end IttyBitty

namespace IttyBitty

/-- Specification-side view of the raw storage: bit `i` of the word array
(reading absent words as zero, like the embedding's out-of-range reads). -/
def rawBit (buf : List Nat) (i : Nat) : Bool := (word buf (i / 64)).testBit (i % 64)

theorem capacity_spilled {N : Nat} {s : IttyBitty N} (h : s.spilled = true) :
    capacity s = s.buf.length * 64 := by
  rw [capacity, if_pos h]
  rfl

theorem capacity_inline {N : Nat} {s : IttyBitty N} (h : s.spilled = false) :
    capacity s = 64 * N - 1 := by
  rw [capacity, if_neg (by simp [h])]
  rfl

theorem get_unchecked_eq_rawBit {N : Nat} (s : IttyBitty N) (bit : Nat) :
    get_unchecked s bit = rawBit s.buf bit := by
  unfold get_unchecked rawBit
  rw [shiftr6_eq, and63_eq, one_shl_eq, Nat.and_two_pow]
  cases h : (word s.buf (bit / 64)).testBit (bit % 64) <;>
    simp [h, (Nat.two_pow_pos (bit % 64)).ne']

theorem get_eq_of_lt {N : Nat} {s : IttyBitty N} {bit : Nat} (h : bit < capacity s) :
    get s bit = rawBit s.buf bit := by
  rw [get, if_pos h, get_unchecked_eq_rawBit]

theorem get_eq_of_ge {N : Nat} {s : IttyBitty N} {bit : Nat} (h : capacity s ≤ bit) :
    get s bit = false := by
  rw [get, if_neg (by omega)]

/-- Under the representation invariant, the storage holds no set bit at or
beyond `capacity`: heap words end exactly at capacity, and the inline
reserved heap-flag bit (index `capacity` itself) is clear. -/
theorem rawBit_of_ge_capacity {N : Nat} {s : IttyBitty N} (hw : Wf s) {i : Nat}
    (h : capacity s ≤ i) : rawBit s.buf i = false := by
  obtain ⟨hN, hinl, hsp, hall, hflag⟩ := hw
  cases hs : s.spilled with
  | true =>
    rw [capacity_spilled hs] at h
    have hdiv : s.buf.length ≤ i / 64 := by
      rw [Nat.le_div_iff_mul_le (by norm_num : 0 < 64)]
      omega
    rw [rawBit, word_of_ge _ hdiv]
    exact Nat.zero_testBit _
  | false =>
    rw [capacity_inline hs] at h
    have hlen := hinl hs
    by_cases hbig : 64 * N ≤ i
    · have hdiv : s.buf.length ≤ i / 64 := by
        rw [Nat.le_div_iff_mul_le (by norm_num : 0 < 64)]
        omega
      rw [rawBit, word_of_ge _ hdiv]
      exact Nat.zero_testBit _
    · have hi : i = 64 * N - 1 := by omega
      have hdiv : i / 64 = N - 1 := by omega
      have hmod : i % 64 = 63 := by omega
      rw [rawBit, hdiv, hmod]
      exact Nat.testBit_lt_two_pow (hflag hs)

theorem get_eq_rawBit {N : Nat} {s : IttyBitty N} (hw : Wf s) (bit : Nat) :
    get s bit = rawBit s.buf bit := by
  by_cases h : bit < capacity s
  · exact get_eq_of_lt h
  · rw [get_eq_of_ge (by omega), rawBit_of_ge_capacity hw (by omega)]

/-- If the raw storage holds a set bit, that bit is below capacity. -/
theorem lt_capacity_of_rawBit {N : Nat} {s : IttyBitty N} (hw : Wf s) {i : Nat}
    (h : rawBit s.buf i = true) : i < capacity s := by
  by_contra hcon
  rw [rawBit_of_ge_capacity hw (by omega)] at h
  exact Bool.false_ne_true h

end IttyBitty

namespace IttyBitty

theorem rawBit_in_word {buf : List Nat} {i w : Nat} (h1 : 64 * w ≤ i)
    (h2 : i < 64 * (w + 1)) : rawBit buf i = (word buf w).testBit (i % 64) := by
  have hdiv : i / 64 = w := Nat.div_eq_of_lt_le (by omega) (by omega)
  rw [rawBit, hdiv]

theorem rawBit_zero_of_word_ge {buf : List Nat} {i : Nat}
    (h : 64 * buf.length ≤ i) : rawBit buf i = false := by
  rw [rawBit, word_of_ge]
  · exact Nat.zero_testBit _
  · rw [Nat.le_div_iff_mul_le (by norm_num : 0 < 64)]
    omega

/-- Characterization of the tail word loop of `next_set_bit`: scanning
words `w0, w0+1, ...` with enough fuel to cover the buffer either reports
`usizeMax` with no raw bit set at or after `64*w0`, or returns the least
raw set bit at or after `64*w0` (which lies inside the buffer). -/
theorem nextScan_zero (buf : List Nat) (w : Nat) : nextScan buf w 0 = usizeMax := rfl

theorem nextScan_succ (buf : List Nat) (w fuel : Nat) :
    nextScan buf w (fuel + 1) =
      if tzk (word buf w) 64 < 64 then tzk (word buf w) 64 + (w <<< 6)
      else nextScan buf (w + 1) fuel := rfl

theorem nextScan_cases (buf : List Nat) :
    ∀ (fuel w0 : Nat), buf.length ≤ w0 + fuel →
    (nextScan buf w0 fuel = usizeMax ∧ ∀ i, 64 * w0 ≤ i → rawBit buf i = false) ∨
    (64 * w0 ≤ nextScan buf w0 fuel ∧ nextScan buf w0 fuel < 64 * buf.length ∧
      rawBit buf (nextScan buf w0 fuel) = true ∧
      ∀ i, 64 * w0 ≤ i → i < nextScan buf w0 fuel → rawBit buf i = false) := by
  intro fuel
  induction fuel with
  | zero =>
    intro w0 hlen
    left
    constructor
    · rfl
    · intro i hi
      exact rawBit_zero_of_word_ge (by omega)
  | succ fuel ih =>
    intro w0 hlen
    rw [nextScan_succ]
    by_cases ht : tzk (word buf w0) 64 < 64
    · rw [if_pos ht]
      right
      have hw0 : w0 < buf.length := by
        by_contra hcon
        rw [word_of_ge buf (by omega), tzk_zero_word] at ht
        omega
      have htb : (word buf w0).testBit (tzk (word buf w0) 64) = true := tzk_testBit ht
      rw [shiftl6_eq]
      have hg1 : 64 * w0 ≤ tzk (word buf w0) 64 + 64 * w0 := by omega
      have hg2 : tzk (word buf w0) 64 + 64 * w0 < 64 * buf.length := by omega
      refine ⟨hg1, hg2, ?_, ?_⟩
      · have hup : tzk (word buf w0) 64 + 64 * w0 < 64 * (w0 + 1) := by omega
        rw [rawBit_in_word hg1 hup, Nat.add_mul_mod_self_left,
          Nat.mod_eq_of_lt ht]
        exact htb
      · intro i h1 h2
        have hup : i < 64 * (w0 + 1) := by omega
        rw [rawBit_in_word h1 hup]
        have hmod : i % 64 = i - 64 * w0 := by omega
        have hlt : i % 64 < tzk (word buf w0) 64 := by omega
        exact tzk_min hlt
    · rw [if_neg ht]
      have hheadraw : ∀ i, 64 * w0 ≤ i → i < 64 * (w0 + 1) → rawBit buf i = false := by
        intro i h1 h2
        rw [rawBit_in_word h1 h2]
        have hlt : i % 64 < tzk (word buf w0) 64 := by
          have := Nat.mod_lt i (show 0 < 64 by norm_num)
          omega
        exact tzk_min hlt
      rcases ih (w0 + 1) (by omega) with ⟨hval, hnone⟩ | ⟨h1, h2, h3, h4⟩
      · left
        refine ⟨hval, ?_⟩
        intro i hi
        by_cases hcase : i < 64 * (w0 + 1)
        · exact hheadraw i hi hcase
        · exact hnone i (by omega)
      · right
        have hg3 : 64 * w0 ≤ nextScan buf (w0 + 1) fuel := by omega
        refine ⟨hg3, h2, h3, ?_⟩
        intro i hi1 hi2
        by_cases hcase : i < 64 * (w0 + 1)
        · exact hheadraw i hi1 hcase
        · exact h4 i (by omega) hi2

end IttyBitty

namespace IttyBitty

theorem next_set_bit_of_ge {N : Nat} (s : IttyBitty N) {bit : Nat}
    (h : capacity s ≤ bit) : next_set_bit s bit = usizeMax := by
  rw [next_set_bit, if_pos h]

theorem next_set_bit_of_lt {N : Nat} (s : IttyBitty N) {bit : Nat}
    (h : ¬ capacity s ≤ bit) :
    next_set_bit s bit =
      if tzk (word s.buf (bit >>> 6) &&& highMask (bit &&& 63)) 64 < 64 then
        tzk (word s.buf (bit >>> 6) &&& highMask (bit &&& 63)) 64 + ((bit >>> 6) <<< 6)
      else nextScan s.buf ((bit >>> 6) + 1) (s.buf.length - ((bit >>> 6) + 1)) := by
  rw [next_set_bit, if_neg h]

/-- Full characterization of `next_set_bit` on well-formed states: it
either reports `usizeMax` and no bit at or after `bit` is set, or it
returns the least set bit index `≥ bit`, which is below capacity. -/
theorem next_set_bit_cases {N : Nat} (s : IttyBitty N) (hw : Wf s) (bit : Nat) :
    (next_set_bit s bit = usizeMax ∧ ∀ i, bit ≤ i → get s i = false) ∨
    (bit ≤ next_set_bit s bit ∧ next_set_bit s bit < capacity s ∧
      get s (next_set_bit s bit) = true ∧
      ∀ i, bit ≤ i → i < next_set_bit s bit → get s i = false) := by
  by_cases hcap : capacity s ≤ bit
  · left
    refine ⟨next_set_bit_of_ge s hcap, ?_⟩
    intro i hi
    exact get_eq_of_ge (by omega)
  · rw [next_set_bit_of_lt s hcap, shiftr6_eq, and63_eq, shiftl6_eq]
    have hdm := Nat.div_add_mod bit 64
    have hbm : bit % 64 < 64 := Nat.mod_lt _ (by norm_num)
    have hmtest : ∀ j, (word s.buf (bit / 64) &&& highMask (bit % 64)).testBit j =
        ((word s.buf (bit / 64)).testBit j && decide (bit % 64 ≤ j ∧ j < 64)) := by
      intro j
      rw [Nat.testBit_and, testBit_highMask hbm]
    have hheadraw : ∀ i, bit ≤ i → i < 64 * (bit / 64 + 1) →
        i % 64 < tzk (word s.buf (bit / 64) &&& highMask (bit % 64)) 64 →
        rawBit s.buf i = false := by
      intro i hi1 hi2 hi3
      have hidiv : i / 64 = bit / 64 := Nat.div_eq_of_lt_le (by omega) (by omega)
      have him := Nat.div_add_mod i 64
      have hfalse : (word s.buf (bit / 64) &&& highMask (bit % 64)).testBit (i % 64)
          = false := tzk_min hi3
      rw [hmtest] at hfalse
      have hble : bit % 64 ≤ i % 64 := by omega
      have him64 : i % 64 < 64 := Nat.mod_lt _ (by norm_num)
      have hdec : (decide (bit % 64 ≤ i % 64 ∧ i % 64 < 64)) = true := by
        simp only [decide_eq_true_eq]
        exact ⟨hble, him64⟩
      rw [hdec, Bool.and_true] at hfalse
      rw [rawBit, hidiv]
      exact hfalse
    by_cases ht : tzk (word s.buf (bit / 64) &&& highMask (bit % 64)) 64 < 64
    · rw [if_pos ht]
      right
      have hmt : (word s.buf (bit / 64) &&& highMask (bit % 64)).testBit
          (tzk (word s.buf (bit / 64) &&& highMask (bit % 64)) 64) = true :=
        tzk_testBit ht
      rw [hmtest] at hmt
      have hble : bit % 64 ≤ tzk (word s.buf (bit / 64) &&& highMask (bit % 64)) 64 ∧
          tzk (word s.buf (bit / 64) &&& highMask (bit % 64)) 64 < 64 := by
        rcases Bool.and_eq_true_iff.mp hmt with ⟨-, h2⟩
        exact of_decide_eq_true h2
      have hwt : (word s.buf (bit / 64)).testBit
          (tzk (word s.buf (bit / 64) &&& highMask (bit % 64)) 64) = true :=
        (Bool.and_eq_true_iff.mp hmt).1
      have hr1 : 64 * (bit / 64) ≤ tzk (word s.buf (bit / 64) &&& highMask (bit % 64)) 64
          + 64 * (bit / 64) := by omega
      have hr2 : tzk (word s.buf (bit / 64) &&& highMask (bit % 64)) 64
          + 64 * (bit / 64) < 64 * (bit / 64 + 1) := by omega
      have hraw : rawBit s.buf (tzk (word s.buf (bit / 64) &&& highMask (bit % 64)) 64
          + 64 * (bit / 64)) = true := by
        rw [rawBit_in_word hr1 hr2, Nat.add_mul_mod_self_left,
          Nat.mod_eq_of_lt hble.2]
        exact hwt
      have hltcap := lt_capacity_of_rawBit hw hraw
      refine ⟨by omega, hltcap, ?_, ?_⟩
      · rw [get_eq_rawBit hw]
        exact hraw
      · intro i hi1 hi2
        rw [get_eq_rawBit hw]
        have hidiv : i / 64 = bit / 64 := Nat.div_eq_of_lt_le (by omega) (by omega)
        have him := Nat.div_add_mod i 64
        exact hheadraw i hi1 (by omega) (by omega)
    · rw [if_neg ht]
      have hhead : ∀ i, bit ≤ i → i < 64 * (bit / 64 + 1) → rawBit s.buf i = false := by
        intro i hi1 hi2
        refine hheadraw i hi1 hi2 ?_
        have : i % 64 < 64 := Nat.mod_lt _ (by norm_num)
        omega
      rcases nextScan_cases s.buf (s.buf.length - (bit / 64 + 1)) (bit / 64 + 1)
          (by omega) with ⟨hval, hnone⟩ | ⟨h1, h2, h3, h4⟩
      · left
        refine ⟨hval, ?_⟩
        intro i hi
        rw [get_eq_rawBit hw]
        by_cases hcase : i < 64 * (bit / 64 + 1)
        · exact hhead i hi hcase
        · exact hnone i (by omega)
      · right
        have hraw := h3
        have hltcap := lt_capacity_of_rawBit hw hraw
        refine ⟨by omega, hltcap, ?_, ?_⟩
        · rw [get_eq_rawBit hw]
          exact hraw
        · intro i hi1 hi2
          rw [get_eq_rawBit hw]
          by_cases hcase : i < 64 * (bit / 64 + 1)
          · exact hhead i hi1 hcase
          · exact h4 i (by omega) hi2

end IttyBitty

namespace IttyBitty

instance wfDecidable {N : Nat} (s : IttyBitty N) : Decidable (Wf s) := by
  unfold Wf
  exact inferInstance

/-- On a real machine the allocation is far below `2^58` words (that is
already `2^64` bytes), so `capacity`, a `usize` value, stays below
`usize::MAX`; this keeps every valid index distinct from the `NONE`
sentinel. -/
theorem capacity_lt_usizeMax {N : Nat} {s : IttyBitty N} (hw : Wf s)
    (hlen : s.buf.length < 2 ^ 58) : capacity s < usizeMax := by
  obtain ⟨hN, hinl, hsp, hall, hflag⟩ := hw
  have hM : usizeMax = 2 ^ 64 - 1 := rfl
  cases hs : s.spilled with
  | true =>
    rw [capacity_spilled hs, hM]
    have h1 : s.buf.length * 64 ≤ (2 ^ 58 - 1) * 64 :=
      Nat.mul_le_mul_right _ (by omega)
    have h2 : (2 ^ 58 - 1) * 64 < 2 ^ 64 - 1 := by norm_num
    omega
  | false =>
    rw [capacity_inline hs, hM]
    have hlen2 := hinl hs
    have h2 : 64 * N ≤ 64 * (2 ^ 58 - 1) := by omega
    have h3 : 64 * (2 ^ 58 - 1) < 2 ^ 64 - 1 := by norm_num
    omega

end IttyBitty

open IttyBitty in
/-- Claim C7: for every well-formed `IttyBitty` (whose allocation fits the
address space) and every `bit`, `next_set_bit bit` returns the lowest
index `i ≥ bit` with `get i = true`; it returns the `usize::MAX` sentinel
immediately when `bit ≥ capacity()` and whenever no set index at or after
`bit` exists, and any non-sentinel result is a valid index strictly below
`capacity()` (hence distinct from the sentinel). -/
theorem claim_c7_next_set_bit {N : Nat} (s : IttyBitty N) (hw : Wf s)
    (hlen : s.buf.length < 2 ^ 58) (bit : Nat) :
    (capacity s ≤ bit → next_set_bit s bit = usizeMax) ∧
    (next_set_bit s bit = usizeMax → ∀ i, bit ≤ i → get s i = false) ∧
    (next_set_bit s bit ≠ usizeMax →
      bit ≤ next_set_bit s bit ∧ next_set_bit s bit < capacity s ∧
      get s (next_set_bit s bit) = true ∧
      ∀ i, bit ≤ i → i < next_set_bit s bit → get s i = false) := by
  have hm := capacity_lt_usizeMax hw hlen
  refine ⟨fun h => next_set_bit_of_ge s h, ?_, ?_⟩
  · intro hmax
    rcases next_set_bit_cases s hw bit with ⟨h1, h2⟩ | ⟨h1, h2, h3, h4⟩
    · exact h2
    · omega
  · intro hne
    rcases next_set_bit_cases s hw bit with ⟨h1, h2⟩ | h
    · exact absurd h1 hne
    · exact h

/-- Witness for C7 at a concrete input: on `new::<2>()` with bit 5 set,
`next_set_bit 3` is a set index `≥ 3` below capacity. -/
theorem claim_c7_witness :
    3 ≤ IttyBitty.next_set_bit (IttyBitty.set (IttyBitty.new 2) 5 true) 3 ∧
    IttyBitty.next_set_bit (IttyBitty.set (IttyBitty.new 2) 5 true) 3 <
      IttyBitty.capacity (IttyBitty.set (IttyBitty.new 2) 5 true) ∧
    IttyBitty.get (IttyBitty.set (IttyBitty.new 2) 5 true)
      (IttyBitty.next_set_bit (IttyBitty.set (IttyBitty.new 2) 5 true) 3) = true := by
  have h := (claim_c7_next_set_bit (IttyBitty.set (IttyBitty.new 2) 5 true)
    (by decide) (by decide) 3).2.2 (by decide)
  exact ⟨h.1, h.2.1, h.2.2.1⟩

namespace IttyBitty

theorem iterFrom_zero {N : Nat} (s : IttyBitty N) (i : Nat) : iterFrom s 0 i = [] := rfl

theorem iterFrom_succ {N : Nat} (s : IttyBitty N) (fuel i : Nat) :
    iterFrom s (fuel + 1) i =
      if next_set_bit s i = usizeMax then []
      else next_set_bit s i :: iterFrom s fuel (next_set_bit s i + 1) := rfl

theorem intoIterFrom_zero {N : Nat} (s : IttyBitty N) (i : Nat) :
    intoIterFrom s 0 i = [] := rfl

theorem intoIterFrom_succ {N : Nat} (s : IttyBitty N) (fuel i : Nat) :
    intoIterFrom s (fuel + 1) i =
      if next_set_bit s i = usizeMax then []
      else next_set_bit s i :: intoIterFrom s fuel (next_set_bit s i + 1) := rfl

/-- The borrowing and the owning iterator run the identical cursor
algorithm, so they produce the same list from any cursor and fuel. -/
theorem intoIterFrom_eq_iterFrom {N : Nat} (s : IttyBitty N) :
    ∀ fuel i, intoIterFrom s fuel i = iterFrom s fuel i := by
  intro fuel
  induction fuel with
  | zero => intro i; rfl
  | succ fuel ih =>
    intro i
    rw [intoIterFrom_succ, iterFrom_succ, ih]

/-- With fuel at least `capacity - c`, the forward iteration from cursor
`c` produces exactly the ascending list of set indices in `[c, capacity)`. -/
theorem iterFrom_filter {N : Nat} (s : IttyBitty N) (hw : Wf s)
    (hcap : capacity s < usizeMax) :
    ∀ fuel c, capacity s - c ≤ fuel →
    iterFrom s fuel c = (List.range' c (capacity s - c)).filter (fun b => get s b) := by
  intro fuel
  induction fuel with
  | zero =>
    intro c hc
    have h0 : capacity s - c = 0 := by omega
    rw [h0, iterFrom_zero]
    rfl
  | succ fuel ih =>
    intro c hc
    rw [iterFrom_succ]
    rcases next_set_bit_cases s hw c with ⟨h1, h2⟩ | ⟨h1, h2, h3, h4⟩
    · rw [if_pos h1]
      symm
      rw [List.filter_eq_nil_iff]
      intro a ha
      obtain ⟨i, hi, rfl⟩ := List.mem_range'.mp ha
      simpa using h2 (c + 1 * i) (by omega)
    · rw [if_neg (by omega)]
      have heq : capacity s - c = (capacity s - next_set_bit s c) + (next_set_bit s c - c) := by
        omega
      rw [heq, ← List.range'_append_1]
      have hc2 : c + (next_set_bit s c - c) = next_set_bit s c := by omega
      rw [hc2, List.filter_append]
      have hfirst : (List.range' c (next_set_bit s c - c)).filter (fun b => get s b) = [] := by
        rw [List.filter_eq_nil_iff]
        intro a ha
        obtain ⟨i, hi, rfl⟩ := List.mem_range'.mp ha
        simpa using h4 (c + 1 * i) (by omega) (by omega)
      rw [hfirst, List.nil_append]
      have hc3 : capacity s - next_set_bit s c = (capacity s - (next_set_bit s c + 1)) + 1 := by
        omega
      rw [hc3, List.range'_succ, List.filter_cons_of_pos (by simpa using h3),
        ih (next_set_bit s c + 1) (by omega)]

end IttyBitty

open IttyBitty in
/-- Claim C9: for every well-formed `IttyBitty` (whose allocation fits the
address space), the borrowing forward iterator yields exactly the indices
`b` with `get b = true`, each exactly once, in strictly ascending order
(that is, it equals the ascending filter of `range capacity`), and the
owning (consuming) iterator yields exactly the same sequence. -/
theorem claim_c9_iterators {N : Nat} (s : IttyBitty N) (hw : Wf s)
    (hlen : s.buf.length < 2 ^ 58) :
    iterList s = (List.range (capacity s)).filter (fun b => get s b) ∧
    intoIterList s = iterList s := by
  have hcap := capacity_lt_usizeMax hw hlen
  constructor
  · rw [iterList, iterFrom_filter s hw hcap (capacity s) 0 (by omega),
      Nat.sub_zero, List.range_eq_range']
  · rw [intoIterList, iterList, intoIterFrom_eq_iterFrom]

/-- Witness for C9 at a concrete input: a spilled set holding bits 4 and
130. -/
theorem claim_c9_witness :
    IttyBitty.iterList (IttyBitty.set (IttyBitty.set (IttyBitty.new 2) 4 true) 130 true) =
      (List.range (IttyBitty.capacity
        (IttyBitty.set (IttyBitty.set (IttyBitty.new 2) 4 true) 130 true))).filter
        (fun b => IttyBitty.get
          (IttyBitty.set (IttyBitty.set (IttyBitty.new 2) 4 true) 130 true) b) ∧
    IttyBitty.intoIterList
        (IttyBitty.set (IttyBitty.set (IttyBitty.new 2) 4 true) 130 true) =
      IttyBitty.iterList
        (IttyBitty.set (IttyBitty.set (IttyBitty.new 2) 4 true) 130 true) :=
  claim_c9_iterators _ (by decide) (by decide)

namespace IttyBitty

theorem set_unchecked_buf {N : Nat} (s : IttyBitty N) (bit : Nat) (val : Bool) :
    (set_unchecked s bit val).buf = s.buf.set (bit >>> 6)
      (if val then word s.buf (bit >>> 6) ||| (1 <<< (bit &&& 63))
       else word s.buf (bit >>> 6) &&& (usizeMax ^^^ (1 <<< (bit &&& 63)))) := rfl

theorem set_unchecked_spilled {N : Nat} (s : IttyBitty N) (bit : Nat) (val : Bool) :
    (set_unchecked s bit val).spilled = s.spilled := rfl

theorem set_unchecked_length {N : Nat} (s : IttyBitty N) (bit : Nat) (val : Bool) :
    (set_unchecked s bit val).buf.length = s.buf.length := by
  rw [set_unchecked_buf, List.length_set]

theorem capacity_congr {N : Nat} (s t : IttyBitty N) (h1 : s.spilled = t.spilled)
    (h2 : s.buf.length = t.buf.length) : capacity s = capacity t := by
  rw [capacity, capacity, h1, h2]

theorem capacity_set_unchecked {N : Nat} (s : IttyBitty N) (bit : Nat) (val : Bool) :
    capacity (set_unchecked s bit val) = capacity s :=
  capacity_congr _ _ (set_unchecked_spilled s bit val) (set_unchecked_length s bit val)

/-- Effect of `set_unchecked` on the raw bits, provided the written word is
inside the buffer (exactly the source's safety precondition). -/
theorem rawBit_set_unchecked {N : Nat} (s : IttyBitty N) (bit : Nat) (val : Bool)
    (i : Nat) (hlt : bit / 64 < s.buf.length) :
    rawBit (set_unchecked s bit val).buf i =
      if i = bit then val else rawBit s.buf i := by
  have hbm : bit % 64 < 64 := Nat.mod_lt _ (by norm_num)
  have him : i % 64 < 64 := Nat.mod_lt _ (by norm_num)
  have hdmb := Nat.div_add_mod bit 64
  have hdmi := Nat.div_add_mod i 64
  rw [rawBit, set_unchecked_buf, shiftr6_eq, and63_eq, one_shl_eq, word_set]
  by_cases hww : bit / 64 = i / 64
  · rw [if_pos ⟨hww, hlt⟩]
    by_cases hib : i = bit
    · subst hib
      cases val with
      | true =>
        rw [if_pos rfl, Nat.testBit_or, Nat.testBit_two_pow]
        simp
      | false =>
        rw [if_neg Bool.false_ne_true, Nat.testBit_and, Nat.testBit_xor,
          testBit_usizeMax, Nat.testBit_two_pow]
        simp [him]
    · have hne : ¬ (bit % 64 = i % 64) := by omega
      rw [if_neg hib, rawBit, ← hww]
      cases val with
      | true =>
        rw [if_pos rfl, Nat.testBit_or, Nat.testBit_two_pow]
        simp [hne]
      | false =>
        rw [if_neg Bool.false_ne_true, Nat.testBit_and, Nat.testBit_xor,
          testBit_usizeMax, Nat.testBit_two_pow]
        simp [hne, him]
  · have hib : i ≠ bit := by omega
    rw [if_neg (fun hh => hww hh.1), if_neg hib, rawBit]

theorem reallocate_id {N : Nat} (s : IttyBitty N) {bits : Nat}
    (h : bits ≤ capacity s) : reallocate s bits = s := by
  rw [reallocate, if_pos h]

theorem reallocate_buf {N : Nat} (s : IttyBitty N) {bits : Nat}
    (h : ¬ bits ≤ capacity s) :
    (reallocate s bits).buf =
      s.buf ++ List.replicate
        (max (words_needed bits) (s.buf.length + 1) - s.buf.length) 0 ∧
    (reallocate s bits).spilled = true := by
  rw [reallocate, if_neg h]
  exact ⟨rfl, rfl⟩

theorem reallocate_length {N : Nat} (s : IttyBitty N) {bits : Nat}
    (h : ¬ bits ≤ capacity s) :
    (reallocate s bits).buf.length = max (words_needed bits) (s.buf.length + 1) := by
  rw [(reallocate_buf s h).1, List.length_append, List.length_replicate]
  omega

/-- Growth never moves or clears data: the raw bits are unchanged by
`reallocate` (new words are zero, and absent words already read as zero). -/
theorem rawBit_reallocate {N : Nat} (s : IttyBitty N) (bits i : Nat) :
    rawBit (reallocate s bits).buf i = rawBit s.buf i := by
  by_cases h : bits ≤ capacity s
  · rw [reallocate_id s h]
  · rw [rawBit, rawBit, (reallocate_buf s h).1, word_append]
    by_cases h2 : i / 64 < s.buf.length
    · rw [if_pos h2]
    · rw [if_neg h2, word_replicate, word_of_ge s.buf (by omega)]

theorem capacity_reallocate_ge {N : Nat} (s : IttyBitty N) {bits : Nat}
    (hbits : bits + 63 < USIZE) : bits ≤ capacity (reallocate s bits) := by
  by_cases h : bits ≤ capacity s
  · rw [reallocate_id s h]; exact h
  · rw [capacity_spilled (reallocate_buf s h).2, reallocate_length s h]
    have hwn : words_needed bits = (bits + 63) / 64 := by
      rw [words_needed, shiftr6_eq, Nat.mod_eq_of_lt hbits]
    have hceil : bits ≤ 64 * ((bits + 63) / 64) := by
      have hd := Nat.div_add_mod (bits + 63) 64
      have hm : (bits + 63) % 64 < 64 := Nat.mod_lt _ (by norm_num)
      omega
    rw [← hwn] at hceil
    have hmx : words_needed bits ≤ max (words_needed bits) (s.buf.length + 1) :=
      le_max_left _ _
    omega

theorem capacity_reallocate_mono {N : Nat} (s : IttyBitty N) (hw : Wf s)
    (bits : Nat) : capacity s ≤ capacity (reallocate s bits) := by
  by_cases h : bits ≤ capacity s
  · rw [reallocate_id s h]
  · rw [capacity_spilled (reallocate_buf s h).2, reallocate_length s h]
    obtain ⟨hN, hinl, -, -, -⟩ := hw
    have hmx : s.buf.length + 1 ≤ max (words_needed bits) (s.buf.length + 1) :=
      le_max_right _ _
    cases hs : s.spilled with
    | true => rw [capacity_spilled hs]; omega
    | false =>
      rw [capacity_inline hs]
      have hlen := hinl hs
      omega

/-- On a well-formed state, any index below capacity addresses a word
inside the buffer. -/
theorem wf_div64 {N : Nat} {s : IttyBitty N} (hw : Wf s) {b : Nat}
    (h : b < capacity s) : b / 64 < s.buf.length := by
  obtain ⟨hN, hinl, -, -, -⟩ := hw
  rw [Nat.div_lt_iff_lt_mul (by norm_num : 0 < 64)]
  cases hs : s.spilled with
  | true => rw [capacity_spilled hs] at h; omega
  | false =>
    rw [capacity_inline hs] at h
    have hlen := hinl hs
    omega

end IttyBitty

namespace IttyBitty

theorem rawBit_replicate (n i : Nat) : rawBit (List.replicate n 0) i = false := by
  rw [rawBit, word_replicate]
  exact Nat.zero_testBit _

theorem get_new_false (N b : Nat) : get (new N) b = false := by
  by_cases h : b < capacity (new N)
  · rw [get, if_pos h, get_unchecked_eq_rawBit]
    exact rawBit_replicate N b
  · exact get_eq_of_ge (by omega)

theorem get_with_capacity_false (N c b : Nat) : get (with_capacity N c) b = false := by
  rw [with_capacity]
  split
  · exact get_new_false N b
  · by_cases h : b < capacity (⟨true, List.replicate (words_needed c) 0⟩ : IttyBitty N)
    · rw [get, if_pos h, get_unchecked_eq_rawBit]
      exact rawBit_replicate _ b
    · exact get_eq_of_ge (by omega)

theorem set_false_oob {N : Nat} (s : IttyBitty N) {b : Nat}
    (h : capacity s ≤ b) : set s b false = s := by
  rw [set, if_pos h, if_neg Bool.false_ne_true]

end IttyBitty

open IttyBitty in
/-- Claim C8: out-of-range safe accessors never error and never grow: for
`b ≥ capacity()`, `get b` is `false` and `set b false` leaves the state
(and hence capacity and allocation) entirely unchanged; and a freshly
constructed set (`new` or `with_capacity`) has every bit `false`. -/
theorem claim_c8_oob_accessors {N : Nat} (s : IttyBitty N) (b c : Nat) :
    (capacity s ≤ b → get s b = false ∧ set s b false = s) ∧
    get (new N) b = false ∧
    get (with_capacity N c) b = false :=
  ⟨fun h => ⟨get_eq_of_ge h, set_false_oob s h⟩,
    get_new_false N b, get_with_capacity_false N c b⟩

/-- Witness for C8 at a concrete input: a spilled set with capacity 192
queried at 500. -/
theorem claim_c8_witness :
    IttyBitty.get (IttyBitty.set (IttyBitty.new 2) 130 true) 500 = false ∧
    IttyBitty.set (IttyBitty.set (IttyBitty.new 2) 130 true) 500 false =
      IttyBitty.set (IttyBitty.new 2) 130 true ∧
    IttyBitty.get (IttyBitty.new 2) 500 = false ∧
    IttyBitty.get (IttyBitty.with_capacity 2 1000) 500 = false := by
  have h := claim_c8_oob_accessors (IttyBitty.set (IttyBitty.new 2) 130 true) 500 1000
  exact ⟨(h.1 (by decide)).1, (h.1 (by decide)).2, h.2.1, h.2.2⟩

namespace IttyBitty

/-- After `set b true` the index `b` is below capacity, provided the
internal `words_needed` ceiling computation `(b + 1) + 63` does not
overflow `usize`. -/
theorem lt_capacity_set_true {N : Nat} (s : IttyBitty N) (b : Nat)
    (hb : b + 64 < USIZE) : b < capacity (set s b true) := by
  by_cases hcap : capacity s ≤ b
  · rw [set, if_pos hcap, if_pos rfl, capacity_set_unchecked,
      Nat.mod_eq_of_lt (by omega : b + 1 < USIZE)]
    have := capacity_reallocate_ge s (show b + 1 + 63 < USIZE by omega)
    omega
  · rw [set, if_neg hcap, capacity_set_unchecked]
    omega

end IttyBitty

open IttyBitty in
/-- Counterexample to C4 as stated: at `b = usize::MAX - 63` the addition
`b + 1` does not overflow, yet after `set(b, true)` the bit reads back
`false` (the ceiling computation inside `words_needed` wraps, growth
collapses to one extra word, and the write lands outside the buffer —
undefined behaviour in the real code, a dropped write in this model). -/
theorem claim_c4_counterexample :
    usizeMax - 63 + 1 < USIZE ∧
    IttyBitty.get (IttyBitty.set (IttyBitty.new 2) (usizeMax - 63) true)
      (usizeMax - 63) = false := by
  constructor
  · decide
  · decide

open IttyBitty in
/-- Claim C4 (amended): the round trip holds for every `b` such that the
growth computation `(b + 1) + 63` fits in `usize` (`b ≤ usize::MAX - 64`):
after `set(b, true)`, `get b` is `true`; after a subsequent
`set(b, false)`, `get b` is `false`; this covers both the in-capacity case
and the growth (spill or regrowth) case, and `set(b, true)` preserves
`get` at every other index. -/
theorem claim_c4_round_trip {N : Nat} (s : IttyBitty N) (hw : Wf s) (b : Nat)
    (hb : b + 64 < USIZE) :
    get (set s b true) b = true ∧
    get (set (set s b true) b false) b = false ∧
    ∀ i, i ≠ b → get (set s b true) i = get s i := by
  have hmod : (b + 1) % USIZE = b + 1 := Nat.mod_eq_of_lt (by omega)
  by_cases hcap : capacity s ≤ b
  · have hgrow : ¬ (b + 1 ≤ capacity s) := by omega
    have hshape : set s b true = set_unchecked (reallocate s (b + 1)) b true := by
      rw [IttyBitty.set, if_pos hcap, if_pos rfl, hmod]
    have hge : b + 1 ≤ capacity (reallocate s (b + 1)) :=
      capacity_reallocate_ge s (by omega)
    have hwlt : b / 64 < (reallocate s (b + 1)).buf.length := by
      have h2 := hge
      rw [capacity_spilled (reallocate_buf s hgrow).2] at h2
      rw [Nat.div_lt_iff_lt_mul (by norm_num : 0 < 64)]
      omega
    have hcapeq : capacity (set s b true) = capacity (reallocate s (b + 1)) := by
      rw [hshape, capacity_set_unchecked]
    have hlen1 : b / 64 < (set s b true).buf.length := by
      rw [hshape, set_unchecked_length]
      exact hwlt
    refine ⟨?_, ?_, ?_⟩
    · rw [hshape, get_eq_of_lt (by rw [capacity_set_unchecked]; omega),
        rawBit_set_unchecked _ b true b hwlt, if_pos rfl]
    · have hshape2 : set (set s b true) b false =
          set_unchecked (set s b true) b false := by
        rw [IttyBitty.set, if_neg (by omega)]
      rw [hshape2, get_eq_of_lt (by rw [capacity_set_unchecked]; omega),
        rawBit_set_unchecked _ b false b hlen1, if_pos rfl]
    · intro i hib
      by_cases hi : i < capacity (reallocate s (b + 1))
      · rw [hshape, get_eq_of_lt (by rw [capacity_set_unchecked]; omega),
          rawBit_set_unchecked _ b true i hwlt, if_neg hib, rawBit_reallocate,
          ← get_eq_rawBit hw]
      · have hmono := capacity_reallocate_mono s hw (b + 1)
        rw [hshape, get_eq_of_ge (by rw [capacity_set_unchecked]; omega),
          get_eq_of_ge (by omega)]
  · have hshape : set s b true = set_unchecked s b true := by
      rw [IttyBitty.set, if_neg hcap]
    have hwlt : b / 64 < s.buf.length := wf_div64 hw (by omega)
    have hcapeq : capacity (set s b true) = capacity s := by
      rw [hshape, capacity_set_unchecked]
    have hlen1 : b / 64 < (set s b true).buf.length := by
      rw [hshape, set_unchecked_length]
      exact hwlt
    refine ⟨?_, ?_, ?_⟩
    · rw [hshape, get_eq_of_lt (by rw [capacity_set_unchecked]; omega),
        rawBit_set_unchecked s b true b hwlt, if_pos rfl]
    · have hshape2 : set (set s b true) b false =
          set_unchecked (set s b true) b false := by
        rw [IttyBitty.set, if_neg (by omega)]
      rw [hshape2, get_eq_of_lt (by rw [capacity_set_unchecked]; omega),
        rawBit_set_unchecked _ b false b hlen1, if_pos rfl]
    · intro i hib
      by_cases hi : i < capacity s
      · rw [hshape, get_eq_of_lt (by rw [capacity_set_unchecked]; omega),
          rawBit_set_unchecked s b true i hwlt, if_neg hib, ← get_eq_of_lt hi]
      · rw [hshape, get_eq_of_ge (by rw [capacity_set_unchecked]; omega),
          get_eq_of_ge (by omega)]

/-- Witness for C4 at a concrete input crossing the inline/heap boundary. -/
theorem claim_c4_witness :
    IttyBitty.get (IttyBitty.set (IttyBitty.new 2) 130 true) 130 = true ∧
    IttyBitty.get (IttyBitty.set (IttyBitty.set (IttyBitty.new 2) 130 true)
      130 false) 130 = false ∧
    IttyBitty.get (IttyBitty.set (IttyBitty.new 2) 130 true) 4 =
      IttyBitty.get (IttyBitty.new 2) 4 := by
  have h := claim_c4_round_trip (IttyBitty.new 2) (by decide) 130 (by decide)
  exact ⟨h.1, h.2.1, h.2.2 4 (by decide)⟩

namespace IttyBitty

theorem truncate_spilled {N : Nat} (s : IttyBitty N) (bit : Nat) :
    (truncate s bit).spilled = s.spilled := by
  rw [truncate]
  split <;> rfl

theorem truncate_length {N : Nat} {s : IttyBitty N} (hw : Wf s) (bit : Nat) :
    (truncate s bit).buf.length = s.buf.length := by
  by_cases h : bit < capacity s
  · have hwlt : bit / 64 < s.buf.length := wf_div64 hw h
    rw [truncate, if_pos h]
    simp only [List.length_append, List.length_take, List.length_set,
      List.length_replicate, shiftr6_eq]
    omega
  · rw [truncate, if_neg h]

theorem capacity_truncate {N : Nat} {s : IttyBitty N} (hw : Wf s) (bit : Nat) :
    capacity (truncate s bit) = capacity s :=
  capacity_congr _ _ (truncate_spilled s bit) (truncate_length hw bit)

theorem capacity_clear {N : Nat} (s : IttyBitty N) :
    capacity (clear s) = capacity s :=
  capacity_congr _ _ rfl (by simp [clear])

theorem capacity_set_mono {N : Nat} (s : IttyBitty N) (hw : Wf s) (b : Nat)
    (v : Bool) : capacity s ≤ capacity (set s b v) := by
  rw [set]
  by_cases hcap : capacity s ≤ b
  · rw [if_pos hcap]
    cases v with
    | false => rw [if_neg Bool.false_ne_true]
    | true =>
      rw [if_pos rfl, capacity_set_unchecked]
      exact capacity_reallocate_mono s hw _
  · rw [if_neg hcap, capacity_set_unchecked]

end IttyBitty

open IttyBitty in
/-- Counterexample to C5 as stated: at `b = usize::MAX - 63` (so `b + 1`
does not overflow and `b ≥ capacity()`), `set(b, true)` leaves
`capacity() = 192`, not `> b`: the ceiling computation inside
`words_needed` overflows and the growth request collapses. -/
theorem claim_c5_counterexample :
    IttyBitty.capacity (IttyBitty.new 2) ≤ usizeMax - 63 ∧
    usizeMax - 63 + 1 < USIZE ∧
    ¬ (usizeMax - 63 <
      IttyBitty.capacity (IttyBitty.set (IttyBitty.new 2) (usizeMax - 63) true)) := by
  refine ⟨by decide, by decide, by decide⟩

open IttyBitty in
/-- Claim C5 (amended): `capacity()` is monotonically non-decreasing across
`set` (any value, any index), `clear` and `truncate`; and for `b` at or
beyond the current capacity, `set(b, true)` leaves `capacity() > b`
provided the growth computation `(b + 1) + 63` fits in `usize`
(`b ≤ usize::MAX - 64`). -/
theorem claim_c5_capacity_monotone {N : Nat} (s : IttyBitty N) (hw : Wf s)
    (b k : Nat) (v : Bool) :
    capacity s ≤ capacity (set s b v) ∧
    capacity (clear s) = capacity s ∧
    capacity (truncate s k) = capacity s ∧
    (b + 64 < USIZE → capacity s ≤ b → b < capacity (set s b true)) :=
  ⟨capacity_set_mono s hw b v, capacity_clear s, capacity_truncate hw k,
    fun hb _ => lt_capacity_set_true s b hb⟩

/-- Witness for C5 at a concrete input: growth from inline capacity 127 to
a spilled buffer on `set 128 true`. -/
theorem claim_c5_witness :
    IttyBitty.capacity (IttyBitty.new 2) ≤
      IttyBitty.capacity (IttyBitty.set (IttyBitty.new 2) 128 true) ∧
    IttyBitty.capacity (IttyBitty.clear (IttyBitty.new 2)) =
      IttyBitty.capacity (IttyBitty.new 2) ∧
    IttyBitty.capacity (IttyBitty.truncate (IttyBitty.new 2) 3) =
      IttyBitty.capacity (IttyBitty.new 2) ∧
    128 < IttyBitty.capacity (IttyBitty.set (IttyBitty.new 2) 128 true) := by
  have h := claim_c5_capacity_monotone (IttyBitty.new 2) (by decide) 128 3 true
  exact ⟨h.1, h.2.1, h.2.2.1, h.2.2.2 (by decide) (by decide)⟩

namespace IttyBitty

theorem word_take_append_replicate (l : List Nat) (n m j : Nat) (hn : n ≤ l.length) :
    word (l.take n ++ List.replicate m 0) j = if j < n then word l j else 0 := by
  rw [word_append]
  have hlt : (l.take n).length = n := by
    simp only [List.length_take]
    omega
  rw [hlt]
  by_cases h : j < n
  · rw [if_pos h, if_pos h, word_take l h]
  · rw [if_neg h, if_neg h, word_replicate]

theorem truncate_buf_of_lt {N : Nat} (s : IttyBitty N) {k : Nat}
    (hk : k < capacity s) :
    (truncate s k).buf =
      ((s.buf.set (k >>> 6) (word s.buf (k >>> 6) &&& lowMask (k &&& 63))).take
        ((k >>> 6) + 1)) ++
      List.replicate
        ((s.buf.set (k >>> 6) (word s.buf (k >>> 6) &&& lowMask (k &&& 63))).length
          - ((k >>> 6) + 1)) 0 := by
  rw [truncate, if_pos hk]

/-- Word-level effect of `truncate`: words below `k`'s word are untouched,
`k`'s word is masked to its bits below `k`'s offset, later words are
zeroed. -/
theorem word_truncate {N : Nat} {s : IttyBitty N} (hw : Wf s) {k : Nat}
    (hk : k < capacity s) (j : Nat) :
    word (truncate s k).buf j =
      if j < k / 64 then word s.buf j
      else if j = k / 64 then word s.buf (k / 64) &&& lowMask (k % 64)
      else 0 := by
  have hwlt : k / 64 < s.buf.length := wf_div64 hw hk
  rw [truncate_buf_of_lt s hk, shiftr6_eq, and63_eq,
    word_take_append_replicate
      (s.buf.set (k / 64) (word s.buf (k / 64) &&& lowMask (k % 64)))
      (k / 64 + 1) _ j (by rw [List.length_set]; omega),
    word_set]
  by_cases h1 : j < k / 64
  · rw [if_pos (by omega), if_neg (fun hh => by omega), if_pos h1]
  · by_cases h2 : j = k / 64
    · rw [if_pos (by omega), if_pos ⟨h2.symm, hwlt⟩, if_neg h1, if_pos h2]
    · rw [if_neg (by omega), if_neg h1, if_neg h2]

end IttyBitty

open IttyBitty in
/-- Claim C6: for every well-formed set and every `k`, after `truncate k`:
`get b = false` for all `b ≥ k`, `get b` is unchanged for all `b < k`,
`capacity()` is unchanged, and when `k ≥ capacity()` the whole operation
is a no-op. -/
theorem claim_c6_truncate {N : Nat} (s : IttyBitty N) (hw : Wf s) (k : Nat) :
    capacity (truncate s k) = capacity s ∧
    (∀ b, k ≤ b → get (truncate s k) b = false) ∧
    (∀ b, b < k → get (truncate s k) b = get s b) ∧
    (capacity s ≤ k → truncate s k = s) := by
  have hcapeq := capacity_truncate hw k
  refine ⟨hcapeq, ?_, ?_, ?_⟩
  · intro b hb
    by_cases hbc : b < capacity s
    · have hk : k < capacity s := by omega
      have hkm : k % 64 < 64 := Nat.mod_lt _ (by norm_num)
      rw [IttyBitty.get, if_pos (by rw [hcapeq]; omega), get_unchecked_eq_rawBit, rawBit,
        word_truncate hw hk]
      have hdiv : k / 64 ≤ b / 64 := Nat.div_le_div_right hb
      by_cases h1 : b / 64 = k / 64
      · rw [if_neg (by omega), if_pos h1, Nat.testBit_and, testBit_lowMask hkm]
        have hne : ¬ (b % 64 < k % 64) := by
          have hdk := Nat.div_add_mod k 64
          have hdb := Nat.div_add_mod b 64
          omega
        simp [hne]
      · rw [if_neg (by omega), if_neg h1]
        exact Nat.zero_testBit _
    · exact get_eq_of_ge (by omega)
  · intro b hb
    by_cases hbc : b < capacity s
    · by_cases hkc : k < capacity s
      · have hkm : k % 64 < 64 := Nat.mod_lt _ (by norm_num)
        rw [IttyBitty.get, if_pos (by rw [hcapeq]; omega), get_unchecked_eq_rawBit, rawBit,
          word_truncate hw hkc, get_eq_of_lt hbc, rawBit]
        have hdiv : b / 64 ≤ k / 64 := Nat.div_le_div_right (le_of_lt hb)
        by_cases h1 : b / 64 < k / 64
        · rw [if_pos h1]
        · have h2 : b / 64 = k / 64 := by omega
          rw [if_neg h1, if_pos h2, h2, Nat.testBit_and, testBit_lowMask hkm]
          have hlt : b % 64 < k % 64 := by
            have hdk := Nat.div_add_mod k 64
            have hdb := Nat.div_add_mod b 64
            omega
          simp [hlt]
      · have hid : truncate s k = s := by rw [truncate, if_neg hkc]
        rw [hid]
    · rw [get_eq_of_ge (by rw [hcapeq]; omega), get_eq_of_ge (by omega)]
  · intro hk
    rw [truncate, if_neg (by omega)]

/-- Witness for C6 at a concrete input (the crate's own spilled-truncate
test): bits 239, 240, 241 set, then `truncate 240`. -/
theorem claim_c6_witness :
    IttyBitty.capacity (IttyBitty.truncate (IttyBitty.set (IttyBitty.set
        (IttyBitty.set (IttyBitty.new 2) 239 true) 240 true) 241 true) 240) =
      IttyBitty.capacity (IttyBitty.set (IttyBitty.set
        (IttyBitty.set (IttyBitty.new 2) 239 true) 240 true) 241 true) ∧
    IttyBitty.get (IttyBitty.truncate (IttyBitty.set (IttyBitty.set
        (IttyBitty.set (IttyBitty.new 2) 239 true) 240 true) 241 true) 240) 241 = false ∧
    IttyBitty.get (IttyBitty.truncate (IttyBitty.set (IttyBitty.set
        (IttyBitty.set (IttyBitty.new 2) 239 true) 240 true) 241 true) 240) 239 =
      IttyBitty.get (IttyBitty.set (IttyBitty.set
        (IttyBitty.set (IttyBitty.new 2) 239 true) 240 true) 241 true) 239 := by
  have h := claim_c6_truncate (IttyBitty.set (IttyBitty.set
    (IttyBitty.set (IttyBitty.new 2) 239 true) 240 true) 241 true) (by decide) 240
  exact ⟨h.1, h.2.1 241 (by decide), h.2.2.1 239 (by decide)⟩

open IttyBitty in
/-- Counterexample to C10 as stated: `bit = usize::MAX - 63` is strictly
below `usize::MAX` (so the claim promises the write stays within the
allocation established by `reallocate(bit + 1)`), yet the buffer grown by
`reallocate(bit + 1)` has only 3 words while the write lands at word
index `2^58 - 1`: the addition inside `words_needed` overflows. -/
theorem claim_c10_counterexample :
    usizeMax - 63 < usizeMax ∧
    IttyBitty.capacity (IttyBitty.new 2) ≤ usizeMax - 63 ∧
    ¬ ((usizeMax - 63) >>> 6 <
      (IttyBitty.reallocate (IttyBitty.new 2) (usizeMax - 63 + 1)).buf.length) := by
  refine ⟨by decide, by decide, by decide⟩

open IttyBitty in
/-- Claim C10 (amended): when `bit ≥ capacity()`, `set(bit, true)` runs
`set_unchecked` after `reallocate((bit + 1) mod 2^64)`. At
`bit = usize::MAX` the request wraps to `reallocate(0)`, a no-op, and the
write's word index `bit >> 6` lies outside every allocated word. For
`bit + 64 < 2^64` (so both `bit + 1` and the `bits + 63` inside
`words_needed` stay in range) nothing overflows and the write stays within
the allocation established by `reallocate(bit + 1)`. In the remaining zone
`usize::MAX - 63 ≤ bit < usize::MAX`, `bit + 1` itself does not overflow
but `words_needed` does: the grown buffer has only `words + 1` words and
the write again falls outside it. (The word-count bound reflects that an
allocation can hold far fewer than `2^58` words.) -/
theorem claim_c10_set_growth_bounds {N : Nat} (s : IttyBitty N) (hw : Wf s)
    (hlen : s.buf.length + 1 < 2 ^ 58) (bit : Nat) (hcap : capacity s ≤ bit) :
    set s bit true = set_unchecked (reallocate s ((bit + 1) % USIZE)) bit true ∧
    (bit = usizeMax →
      (bit + 1) % USIZE = 0 ∧
      reallocate s ((bit + 1) % USIZE) = s ∧
      s.buf.length ≤ bit >>> 6) ∧
    (bit + 64 < USIZE →
      (bit + 1) % USIZE = bit + 1 ∧
      bit >>> 6 < (reallocate s ((bit + 1) % USIZE)).buf.length) ∧
    (usizeMax - 63 ≤ bit → bit < usizeMax →
      (reallocate s ((bit + 1) % USIZE)).buf.length ≤ bit >>> 6) := by
  have hU : USIZE = 2 ^ 64 := rfl
  have hM : usizeMax = 2 ^ 64 - 1 := rfl
  have h58 : (2 : Nat) ^ 58 * 64 = 2 ^ 64 := by norm_num
  have hpos : (0 : Nat) < 2 ^ 64 := Nat.two_pow_pos 64
  refine ⟨by rw [IttyBitty.set, if_pos hcap, if_pos rfl], ?_, ?_, ?_⟩
  · intro hbit
    subst hbit
    have hwrap : (usizeMax + 1) % USIZE = 0 := by
      have hs : usizeMax + 1 = USIZE := by omega
      rw [hs, Nat.mod_self]
    refine ⟨hwrap, ?_, ?_⟩
    · rw [hwrap]
      exact reallocate_id s (Nat.zero_le _)
    · rw [shiftr6_eq]
      omega
  · intro hb
    have hmod : (bit + 1) % USIZE = bit + 1 := Nat.mod_eq_of_lt (by omega)
    refine ⟨hmod, ?_⟩
    rw [hmod]
    have hgrow : ¬ (bit + 1 ≤ capacity s) := by omega
    have hge : bit + 1 ≤ capacity (reallocate s (bit + 1)) :=
      capacity_reallocate_ge s (by omega)
    rw [capacity_spilled (reallocate_buf s hgrow).2] at hge
    rw [shiftr6_eq, Nat.div_lt_iff_lt_mul (by norm_num : 0 < 64)]
    omega
  · intro hz1 hz2
    have hmod : (bit + 1) % USIZE = bit + 1 := Nat.mod_eq_of_lt (by omega)
    rw [hmod]
    have hgrow : ¬ (bit + 1 ≤ capacity s) := by omega
    rw [reallocate_length s hgrow]
    have hwn : words_needed (bit + 1) = 0 := by
      rw [words_needed, shiftr6_eq]
      have hsub : (bit + 1 + 63) % USIZE = bit + 64 - USIZE := by
        rw [Nat.mod_eq_sub_mod (by omega)]
        exact Nat.mod_eq_of_lt (by omega)
      rw [hsub]
      omega
    rw [hwn, shiftr6_eq]
    omega

/-- Witness for C10 at a concrete input: growing from inline capacity 127
by `set 127 true`, the request `128` does not wrap and the written word
index 1 is inside the 3-word grown buffer. -/
theorem claim_c10_witness :
    (127 + 1) % USIZE = 127 + 1 ∧
    127 >>> 6 <
      (IttyBitty.reallocate (IttyBitty.new 2) ((127 + 1) % USIZE)).buf.length :=
  (claim_c10_set_growth_bounds (IttyBitty.new 2) (by decide) (by decide) 127
    (by decide)).2.2.1 (by decide)

open IttyBitty in
/-- Claim C1 is violated by the code (code bug): the equality comparison's
two guard loops over the longer instance's extra words iterate inverted
empty ranges, so those words are never inspected. An empty inline
`IttyBitty::<2>` compares equal to a spilled instance whose word 2 holds
bit 130, although their bit contents differ at index 130. -/
theorem claim_c1_eq_code_bug :
    IttyBitty.eq (IttyBitty.new 2) (IttyBitty.set (IttyBitty.new 2) 130 true) = true ∧
    IttyBitty.get (IttyBitty.set (IttyBitty.new 2) 130 true) 130 = true ∧
    IttyBitty.get (IttyBitty.new 2) 130 = false := by
  refine ⟨by decide, by decide, by decide⟩

open IttyBitty in
/-- Claim C2 is violated by the code (code bug): with only bit 126 set on
an inline `IttyBitty::<2>` (capacity 127), `prev_set_bit(127)` must return
126, the highest set index `< 127`; but the source clamps the argument to
`capacity() - 1 = 126` and then masks exclusively at the clamped position,
so it returns the `usize::MAX` sentinel. -/
theorem claim_c2_prev_set_bit_code_bug :
    IttyBitty.capacity (IttyBitty.set (IttyBitty.new 2) 126 true) = 127 ∧
    IttyBitty.get (IttyBitty.set (IttyBitty.new 2) 126 true) 126 = true ∧
    IttyBitty.prev_set_bit (IttyBitty.set (IttyBitty.new 2) 126 true) 127 =
      usizeMax := by
  refine ⟨by decide, by decide, by decide⟩

open IttyBitty in
/-- Claim C3 is violated by the code (code bug): with the highest settable
index `capacity() - 1 = 126` set, the forward iterator yields `[126]` but
the reverse iterator (which starts at `capacity()` and steps through the
clamped `prev_set_bit`) yields nothing at all instead of `[126]`. -/
theorem claim_c3_iter_rev_code_bug :
    IttyBitty.iterList (IttyBitty.set (IttyBitty.new 2) 126 true) = [126] ∧
    IttyBitty.iterRevList (IttyBitty.set (IttyBitty.new 2) 126 true) = [] := by
  refine ⟨by decide, by decide⟩

namespace IttyBitty

/-! ### The well-formedness predicate is an invariant of the public API.
These lemmas justify restricting the claims to `Wf` states: every state
reachable through `new` / `with_capacity` / `set` / `clear` / `truncate`
is well-formed (for `set`, under the same no-overflow side condition the
round-trip claims carry; beyond it the source performs an out-of-bounds
write, which is undefined behaviour). -/

theorem all_lt_of_word (buf : List Nat) (h : ∀ j, word buf j < USIZE) :
    ∀ x ∈ buf, x < USIZE := by
  intro x hx
  obtain ⟨n, hn⟩ := List.mem_iff_getElem?.mp hx
  have hj := h n
  rw [word, List.getD_eq_getElem?_getD, hn] at hj
  simpa using hj

theorem wf_new (N : Nat) (hN : 2 ≤ N) : Wf (new N) := by
  refine ⟨hN, fun _ => by simp [new], fun h => by simp [new] at h, ?_, fun _ => ?_⟩
  · intro x hx
    rw [List.eq_of_mem_replicate hx]
    exact Nat.two_pow_pos 64
  · rw [show (new N).buf = List.replicate N 0 from rfl, word_replicate]
    exact Nat.two_pow_pos 63

theorem wf_with_capacity (N bits : Nat) (hN : 2 ≤ N) (hbits : bits + 63 < USIZE) :
    Wf (with_capacity N bits) := by
  rw [with_capacity]
  split
  · exact wf_new N hN
  case isFalse h =>
    refine ⟨hN, fun hh => by simp at hh, fun _ => ?_, ?_, fun hh => by simp at hh⟩
    · show 1 ≤ (List.replicate (words_needed bits) 0).length
      rw [List.length_replicate]
      have hIB : INLINE_BITS = 64 := rfl
      rw [INLINE_CAPACITY, hIB] at h
      rw [words_needed, shiftr6_eq, Nat.mod_eq_of_lt hbits]
      omega
    · intro x hx
      rw [List.eq_of_mem_replicate hx]
      exact Nat.two_pow_pos 64

theorem wf_clear {N : Nat} {s : IttyBitty N} (hw : Wf s) : Wf (clear s) := by
  obtain ⟨hN, hinl, hsp, hall, hflag⟩ := hw
  refine ⟨hN, ?_, ?_, ?_, ?_⟩
  · intro h
    rw [show (clear s).buf = List.replicate s.buf.length 0 from rfl,
      List.length_replicate]
    exact hinl h
  · intro h
    rw [show (clear s).buf = List.replicate s.buf.length 0 from rfl,
      List.length_replicate]
    exact hsp h
  · intro x hx
    rw [List.eq_of_mem_replicate hx]
    exact Nat.two_pow_pos 64
  · intro _
    rw [show (clear s).buf = List.replicate s.buf.length 0 from rfl, word_replicate]
    exact Nat.two_pow_pos 63

theorem wf_truncate {N : Nat} {s : IttyBitty N} (hw : Wf s) (k : Nat) :
    Wf (truncate s k) := by
  obtain ⟨hN, hinl, hsp, hall, hflag⟩ := hw
  by_cases hk : k < capacity s
  · refine ⟨hN, ?_, ?_, ?_, ?_⟩
    · intro h
      rw [truncate_spilled] at h
      rw [truncate_length ⟨hN, hinl, hsp, hall, hflag⟩ k]
      exact hinl h
    · intro h
      rw [truncate_spilled] at h
      rw [truncate_length ⟨hN, hinl, hsp, hall, hflag⟩ k]
      exact hsp h
    · apply all_lt_of_word
      intro j
      rw [word_truncate ⟨hN, hinl, hsp, hall, hflag⟩ hk]
      split
      · exact word_lt_of_all hall j
      · split
        · exact Nat.lt_of_le_of_lt Nat.and_le_left (word_lt_of_all hall _)
        · exact Nat.two_pow_pos 64
    · intro h
      rw [truncate_spilled] at h
      rw [word_truncate ⟨hN, hinl, hsp, hall, hflag⟩ hk]
      split
      · exact hflag h
      · split
        · rename_i h2 h3
          rw [← h3]
          exact Nat.lt_of_le_of_lt Nat.and_le_left (hflag h)
        · exact Nat.two_pow_pos 63
  · rw [truncate, if_neg hk]
    exact ⟨hN, hinl, hsp, hall, hflag⟩

theorem wf_set {N : Nat} {s : IttyBitty N} (hw : Wf s) (b : Nat) (v : Bool)
    (hb : b + 64 < USIZE) : Wf (set s b v) := by
  obtain ⟨hN, hinl, hsp, hall, hflag⟩ := hw
  have hm : b % 64 < 64 := Nat.mod_lt _ (by norm_num)
  have hpow64 : (2 : Nat) ^ (b % 64) < 2 ^ 64 :=
    Nat.pow_lt_pow_of_lt (by norm_num) hm
  have hmaskv : usizeMax ^^^ (1 <<< (b &&& 63)) < USIZE := by
    refine Nat.xor_lt_two_pow ?_ ?_
    · have : (0 : Nat) < 2 ^ 64 := Nat.two_pow_pos 64
      have hM : usizeMax = 2 ^ 64 - 1 := rfl
      omega
    · rw [one_shl_eq, and63_eq]
      exact hpow64
  by_cases hcap : capacity s ≤ b
  · cases v with
    | false =>
      rw [set_false_oob s hcap]
      exact ⟨hN, hinl, hsp, hall, hflag⟩
    | true =>
      have hmod : (b + 1) % USIZE = b + 1 := Nat.mod_eq_of_lt (by omega)
      have hshape : set s b true = set_unchecked (reallocate s (b + 1)) b true := by
        rw [set, if_pos hcap, if_pos rfl, hmod]
      have hgrow : ¬ (b + 1 ≤ capacity s) := by omega
      have hXsp : (reallocate s (b + 1)).spilled = true := (reallocate_buf s hgrow).2
      have hXall : ∀ j, word (reallocate s (b + 1)).buf j < USIZE := by
        intro j
        rw [(reallocate_buf s hgrow).1, word_append]
        split
        · exact word_lt_of_all hall j
        · rw [word_replicate]
          exact Nat.two_pow_pos 64
      rw [hshape]
      refine ⟨hN, ?_, ?_, ?_, ?_⟩
      · intro h
        rw [set_unchecked_spilled, hXsp] at h
        exact absurd h (by simp)
      · intro _
        rw [set_unchecked_length, reallocate_length s hgrow]
        omega
      · apply all_lt_of_word
        intro j
        rw [set_unchecked_buf, word_set]
        split
        · rw [if_pos rfl, one_shl_eq, and63_eq]
          exact Nat.or_lt_two_pow (hXall _) hpow64
        · exact hXall j
      · intro h
        rw [set_unchecked_spilled, hXsp] at h
        exact absurd h (by simp)
  · have hshape : set s b v = set_unchecked s b v := by rw [set, if_neg hcap]
    have hwlt : b / 64 < s.buf.length := wf_div64 ⟨hN, hinl, hsp, hall, hflag⟩ (by omega)
    rw [hshape]
    refine ⟨hN, ?_, ?_, ?_, ?_⟩
    · intro h
      rw [set_unchecked_spilled] at h
      rw [set_unchecked_length]
      exact hinl h
    · intro h
      rw [set_unchecked_spilled] at h
      rw [set_unchecked_length]
      exact hsp h
    · apply all_lt_of_word
      intro j
      rw [set_unchecked_buf, word_set]
      split
      · cases v with
        | true =>
          rw [if_pos rfl, one_shl_eq, and63_eq]
          exact Nat.or_lt_two_pow (word_lt_of_all hall _) hpow64
        | false =>
          rw [if_neg Bool.false_ne_true]
          exact Nat.and_lt_two_pow _ hmaskv
      · exact word_lt_of_all hall j
    · intro h
      rw [set_unchecked_spilled] at h
      have hflag2 := hflag h
      have hcap2 : capacity s = 64 * N - 1 := capacity_inline h
      rw [set_unchecked_buf, word_set]
      split
      · rename_i hc
        have hdiv : b / 64 = N - 1 := by
          rw [← shiftr6_eq b]
          exact hc.1
        have hb63 : b % 64 < 63 := by
          have hd := Nat.div_add_mod b 64
          omega
        have hpow63 : (2 : Nat) ^ (b % 64) < 2 ^ 63 :=
          Nat.pow_lt_pow_of_lt (by norm_num) hb63
        cases v with
        | true =>
          rw [if_pos rfl, one_shl_eq, and63_eq]
          have hword : word s.buf (b >>> 6) < HEAP_FLAG := by
            rw [shiftr6_eq, hdiv]
            exact hflag2
          exact Nat.or_lt_two_pow hword hpow63
        | false =>
          rw [if_neg Bool.false_ne_true]
          have hword : word s.buf (b >>> 6) < HEAP_FLAG := by
            rw [shiftr6_eq, hdiv]
            exact hflag2
          exact Nat.lt_of_le_of_lt Nat.and_le_left hword
      · exact hflag2

end IttyBitty
